import Mathlib

/-!
# Verification of the CGAL Polygon_mesh_processing distance engine

Shallow embedding, over exact rational arithmetic, of the functions of
`Polygon_mesh_processing/distance.h` (point sampling of triangle meshes and
soups, approximate directed Hausdorff distance, the bounded-error
branch-and-bound Hausdorff engine, and the naive recursive validator).

Machine doubles are modelled as rationals; the floating-point square root
`to_double(approximate_sqrt(.))` is kept abstract (passed as a function
parameter) wherever its value matters, since its exact result is not rational.
Components of the repository that live outside the reviewed file
(`AABB_tree`, the Hausdorff traversal traits, `CGAL::spatial_sort`, TBB) are
modelled from the specification and are marked as such.
-/

/-- A 3D point with exact rational coordinates, standing for `Kernel::Point_3`. -/
structure Point3 where
  x : ℚ
  y : ℚ
  z : ℚ
deriving DecidableEq, Repr

/-- `Kernel::Compute_squared_distance_3` on two points. -/
def squared_distance (p q : Point3) : ℚ :=
  (p.x - q.x) ^ 2 + (p.y - q.y) ^ 2 + (p.z - q.z) ^ 2

/-- The barycentric combination emitted by `triangle_grid_sampling`:
`Point_3(p0.x*c0+p1.x*c1+p2.x*c2, ...)`. -/
def baryPoint (p0 p1 p2 : Point3) (c0 c1 c2 : ℚ) : Point3 :=
  ⟨p0.x * c0 + p1.x * c1 + p2.x * c2,
   p0.y * c0 + p1.y * c1 + p2.y * c2,
   p0.z * c0 + p1.z * c1 + p2.z * c2⟩

/-- `CGAL::midpoint` of two points. -/
def midpoint3 (p q : Point3) : Point3 :=
  ⟨(p.x + q.x) / 2, (p.y + q.y) / 2, (p.z + q.z) / 2⟩

/-- Translated from `internal::triangle_grid_sampling` (part_000, lines 50-77).
The source computes `d_p0p1` and `d_p0p2` as `to_double(approximate_sqrt(squared_distance(...)))`;
these two edge lengths are taken here as the parameters `d_p0p1`, `d_p0p2` since a floating
square root is not a rational operation.  `n = max(ceil(d_p0p1/distance), ceil(d_p0p2/distance))`,
then the double loop `for(i=1; i<n; ++i) for(j=1; j<n-i; ++j)` emits the barycentric points
with coefficients `c0 = 1-(i+j)/n`, `c1 = i/n`, `c2 = j/n`. -/
def triangle_grid_sampling (p0 p1 p2 : Point3) (d_p0p1 d_p0p2 distance : ℚ) : List Point3 :=
  let n : ℤ := max ⌈d_p0p1 / distance⌉ ⌈d_p0p2 / distance⌉
  let N : ℕ := n.toNat
  (List.range (N - 1)).flatMap (fun (i0 : ℕ) =>
    (List.range (N - (i0 + 1) - 1)).map (fun (j0 : ℕ) =>
      let i : ℚ := (i0 : ℚ) + 1
      let j : ℚ := (j0 : ℚ) + 1
      baryPoint p0 p1 p2 (1 - (i + j) / (N : ℚ)) (i / (N : ℚ)) (j / (N : ℚ))))

/-- `std::numeric_limits<double>::max()`, the sentinel initial value of
`min_sq_edge_length` in both samplers. -/
def dblMax : ℚ := (2 ^ 53 - 1) * 2 ^ 971

/-- The accumulation shared by both `get_minimum_edge_length` implementations
(part_000, lines 459-477 for the mesh sampler and 623-642 for the soup sampler):
`if (sq_el > 0. && sq_el < min_sq_edge_length) min_sq_edge_length = sq_el;`
folded over the squared lengths of all edges, starting from `dblMax`. -/
def msf_step (acc sq : ℚ) : ℚ :=
  if 0 < sq ∧ sq < acc then sq else acc

/-- The fold over all edge squared lengths, starting from `dblMax`. -/
def min_sq_fold (sqs : List ℚ) : ℚ :=
  sqs.foldl msf_step dblMax

/-- Translated from `Triangle_structure_sampler_for_triangle_mesh::get_minimum_edge_length`:
iterates over the edges of the mesh and keeps the smallest strictly positive squared
edge length (the function never takes a square root and hence returns a squared length).
The mesh's edge set is modelled as the list of its endpoint pairs. -/
def get_minimum_edge_length (edges : List (Point3 × Point3)) : ℚ :=
  min_sq_fold (edges.map (fun e => squared_distance e.1 e.2))

/-- Translated from the grid-sampling branch of `Triangle_structure_sampler_base::procede`
(part_000, lines 227-239): if the `grid_spacing` named parameter is unset (`0.`),
the spacing used is the raw return value of `get_minimum_edge_length`. -/
def procede_grid_spacing (grid_spacing_param : ℚ) (edges : List (Point3 × Point3)) : ℚ :=
  if grid_spacing_param = 0 then get_minimum_edge_length edges else grid_spacing_param

/-- The spacing the specification says is used when no `grid_spacing` parameter is given:
`L` is the length (not the squared length) of the shortest non-degenerate edge, that is
`0 ≤ L` and `L^2` equals the minimal positive squared edge length. -/
def is_shortest_edge_length (edges : List (Point3 × Point3)) (L : ℚ) : Prop :=
  0 ≤ L ∧ L ^ 2 = get_minimum_edge_length edges

/-- Translated from the Monte Carlo face branch of `Triangle_structure_sampler_base::procede`
(part_000, lines 258-282): when `number_of_points_per_face` is unset, the per-face count is
`(std::max)(static_cast<std::size_t>(std::ceil(get_tr_area(tr)) * nb_pts_a_u), std::size_t(1))`;
note that in the source the `std::ceil` call closes over the area alone, and the product with
the density is then truncated by the `static_cast`. -/
def mc_nb_points_per_face (area nb_pts_a_u : ℚ) : ℕ :=
  max (⌊((⌈area⌉ : ℚ) * nb_pts_a_u)⌋.toNat) 1

/-- The per-face count as the claim and the surrounding documentation state it:
`max(1, ceil(face_area * points_per_area_unit))`. -/
def claimed_mc_nb_points_per_face (area nb_pts_a_u : ℚ) : ℕ :=
  max (⌈area * nb_pts_a_u⌉.toNat) 1

/-- The sequential query loop of `approximate_Hausdorff_distance_impl`
(part_000, lines 150-162):
`hint = tree.closest_point(pt, hint); d = to_double(approximate_sqrt(squared_distance(hint, pt)));
if (d > hdist) hdist = d;` iterated over the sample points.
`cp` models `AABB_tree::closest_point(query, hint)` (the tree implementation is not part of
the reviewed file) and `f` models `to_double(approximate_sqrt(.))`. -/
def seq_pass (f : ℚ → ℚ) (cp : Point3 → Point3 → Point3) :
    List Point3 → Point3 → ℚ → ℚ
  | [], _, hdist => hdist
  | pt :: rest, hint, hdist =>
    let hint' := cp pt hint
    let d := f (squared_distance hint' pt)
    seq_pass f cp rest hint' (if d > hdist then d else hdist)

/-- The sequential mode of `approximate_Hausdorff_distance_impl`: starts from the given
hint with `hdist = 0`. -/
def approximate_Hausdorff_distance_impl_seq
    (f : ℚ → ℚ) (cp : Point3 → Point3 → Point3) (sample_points : List Point3)
    (hint : Point3) : ℚ :=
  seq_pass f cp sample_points hint 0

/-- The parallel mode of `approximate_Hausdorff_distance_impl`, built from
`Distance_computation` (part_000, lines 81-124).  Modelled from the spec: TBB's
`parallel_reduce` splits the index range into contiguous chunks, runs the body
`operator()` on each chunk (each invocation resets `hint = initial_hint` and `hdist = 0`,
then runs the same per-point loop as the sequential mode and keeps
`if (hdist > distance) distance = hdist` with `distance` initialized to `-1`),
and `join` combines the body results with `max`. -/
def approximate_Hausdorff_distance_impl_par
    (f : ℚ → ℚ) (cp : Point3 → Point3 → Point3) (initial_hint : Point3)
    (chunks : List (List Point3)) : ℚ :=
  chunks.foldl
    (fun distance ch =>
      let hdist := seq_pass f cp ch initial_hint 0
      if hdist > distance then hdist else distance)
    (-1)

/-- The sequence of `(query, hint)` pairs issued by the sequential query loop, in order:
each step queries `cp pt hint` and passes the result as the hint of the next step. -/
def seq_pass_trace (cp : Point3 → Point3 → Point3) :
    List Point3 → Point3 → List (Point3 × Point3)
  | [], _ => []
  | pt :: rest, hint => (pt, hint) :: seq_pass_trace cp rest (cp pt hint)

/-- Translated from `approximate_Hausdorff_distance` (part_000, lines 1017-1043):
the function copies `original_sample_points` into a vector `sample_points`, runs
`spatial_sort` on that copy, and then calls `approximate_Hausdorff_distance_impl`
on `original_sample_points`; this definition returns the `(query, hint)` trace of the
impl call it makes.  `spatialSort` models the external `CGAL::spatial_sort`. -/
def approximate_Hausdorff_distance_queries
    (spatialSort : List Point3 → List Point3)
    (cp : Point3 → Point3 → Point3)
    (original_sample_points : List Point3) (hint : Point3) : List (Point3 × Point3) :=
  let sample_points := spatialSort original_sample_points
  let _unused := sample_points
  seq_pass_trace cp original_sample_points hint

/-- The query trace the claim describes: the closest-point queries are performed over the
spatially sorted sequence. -/
def claimed_Hausdorff_distance_queries
    (spatialSort : List Point3 → List Point3)
    (cp : Point3 → Point3 → Point3)
    (original_sample_points : List Point3) (hint : Point3) : List (Point3 × Point3) :=
  seq_pass_trace cp (spatialSort original_sample_points) hint

/-- `Kernel::Triangle_3`, by its three vertices. -/
structure Triangle3 where
  v0 : Point3
  v1 : Point3
  v2 : Point3
deriving DecidableEq, Repr

/-- `internal::Candidate_triangle<Kernel>`: a triangle together with its Hausdorff
bounds pair `(lower, upper)`. -/
structure Candidate_triangle where
  m_triangle : Triangle3
  m_bounds : ℚ × ℚ
deriving DecidableEq, Repr

/-- The mutable state of the branch-and-bound loop of `bounded_error_Hausdorff_impl`:
the candidate priority queue and the global `(lower, upper)` bounds. -/
structure BEState where
  queue : List Candidate_triangle
  global_lower : ℚ
  global_upper : ℚ
deriving DecidableEq, Repr

/-- Modelled from the spec: the external collaborators of the branch-and-bound loop that
live in `AABB_traversal_traits_with_Hausdorff_distance.h`, which is not part of the
reviewed file.  `closestPrimitive p` is the opaque id of the triangle of TM2 owning the
closest point to `p` (`tm2_tree.closest_point_and_primitive(p).second`); `subBounds pb t`
is the `(lower, upper)` pair computed for sub-triangle `t` by the bounded descent
`Hausdorff_primitive_traits_tm2` seeded with the parent bounds `pb`. -/
structure BEOracles where
  closestPrimitive : Point3 → ℕ
  subBounds : ℚ × ℚ → Triangle3 → ℚ × ℚ

/-- Modelled from the spec: the priority queue is a max-heap of candidate triangles
ordered by upper bound, so popping returns a candidate whose upper bound is maximal,
together with the remaining queue. -/
def popMax : List Candidate_triangle → Option (Candidate_triangle × List Candidate_triangle)
  | [] => none
  | c :: rest =>
    match popMax rest with
    | none => some (c, [])
    | some (m, r) =>
      if c.m_bounds.2 < m.m_bounds.2 then some (m, c :: r) else some (c, rest)

/-- Upper bound of the top of the queue (`candidate_triangles.top().m_bounds.second`). -/
def topUpper (q : List Candidate_triangle) : ℚ :=
  match popMax q with
  | some (t, _) => t.m_bounds.2
  | none => 0

/-- The standard quadrisection used in the subdivision step (part_000, lines 1437-1443):
`{(v0,v01,v02), (v1,v01,v12), (v2,v02,v12), (v01,v02,v12)}` with `vab = midpoint(va,vb)`. -/
def quadrisect (t : Triangle3) : List Triangle3 :=
  let v01 := midpoint3 t.v0 t.v1
  let v02 := midpoint3 t.v0 t.v2
  let v12 := midpoint3 t.v1 t.v2
  [⟨t.v0, v01, v02⟩, ⟨t.v1, v01, v12⟩, ⟨t.v2, v02, v12⟩, ⟨v01, v02, v12⟩]

/-- One iteration of the while loop of `bounded_error_Hausdorff_impl`
(part_000, lines 1391-1476): pop the top candidate; if its upper bound can beat the
global lower bound and its own gap exceeds `error_bound`, run the same-nearest-triangle
test, then the edge-length test (both promote the candidate's upper bound to the global
lower bound), and otherwise subdivide into four sub-triangles, recompute their bounds,
raise the global lower bound, push them, and reset the global upper bound to
`max(top-of-queue upper, global lower)`. -/
def bstep (O : BEOracles) (error_bound : ℚ) (st : BEState) : BEState :=
  match popMax st.queue with
  | none => st
  | some (t, rest) =>
    let tb := t.m_bounds
    if tb.2 > st.global_lower ∧ tb.2 - tb.1 > error_bound then
      let tri := t.m_triangle
      if O.closestPrimitive tri.v0 = O.closestPrimitive tri.v1 ∧
         O.closestPrimitive tri.v1 = O.closestPrimitive tri.v2 then
        { st with queue := rest, global_lower := tb.2 }
      else if squared_distance tri.v0 tri.v1 < error_bound * error_bound ∧
              squared_distance tri.v0 tri.v2 < error_bound * error_bound ∧
              squared_distance tri.v1 tri.v2 < error_bound * error_bound then
        { st with queue := rest, global_lower := tb.2 }
      else
        let newcands := (quadrisect tri).map
          (fun s => Candidate_triangle.mk s (O.subBounds tb s))
        let newLower := newcands.foldl
          (fun gl c => if c.m_bounds.1 > gl then c.m_bounds.1 else gl) st.global_lower
        let q' := rest ++ newcands
        ⟨q', newLower, max (topUpper q') newLower⟩
    else
      { st with queue := rest }

/-- The while loop
`while ((global_bounds.second - global_bounds.first > error_bound) && !candidate_triangles.empty())`
run with explicit fuel; `none` means the fuel was exhausted with the loop condition
still true. -/
def berun (O : BEOracles) (error_bound : ℚ) : ℕ → BEState → Option BEState
  | 0, st =>
    if error_bound < st.global_upper - st.global_lower ∧ st.queue ≠ [] then none
    else some st
  | n + 1, st =>
    if error_bound < st.global_upper - st.global_lower ∧ st.queue ≠ [] then
      berun O error_bound n (bstep O error_bound st)
    else some st

/-- `bounded_error_Hausdorff_impl` from the loop onwards: run the branch-and-bound loop
from the seeded state and return
`(global_bounds.first + global_bounds.second) / 2.` (part_000, line 1479). -/
def bounded_error_Hausdorff_impl (O : BEOracles) (error_bound : ℚ) (fuel : ℕ)
    (init : BEState) : Option ℚ :=
  (berun O error_bound fuel init).map
    (fun st => (st.global_lower + st.global_upper) / 2)

/-- `std::max(std::max(squared_distance(v0,v1), squared_distance(v0,v2)), squared_distance(v1,v2))`,
the quantity tested against `squared_error_bound` in `recursive_hausdorff_subdivision`. -/
def max_sq_edge (v0 v1 v2 : Point3) : ℚ :=
  max (max (squared_distance v0 v1) (squared_distance v0 v2)) (squared_distance v1 v2)

/-- Translated from `internal::recursive_hausdorff_subdivision` (part_000, lines 1492-1532),
with explicit fuel standing for the call stack: if the maximal squared edge length is below
`squared_error_bound`, return the max of the three vertices' squared distances to their
closest points on TM2 (`cp` models `tm2_tree.closest_point`); otherwise recurse on the four
midpoint sub-triangles and take the max.  `none` means the recursion did not reach its base
case within the given depth. -/
def recursive_hausdorff_subdivision (cp : Point3 → Point3) (squared_error_bound : ℚ) :
    ℕ → Point3 → Point3 → Point3 → Option ℚ
  | 0, _, _, _ => none
  | fuel + 1, v0, v1, v2 =>
    if max_sq_edge v0 v1 v2 < squared_error_bound then
      some (max (max (squared_distance v0 (cp v0)) (squared_distance v1 (cp v1)))
                (squared_distance v2 (cp v2)))
    else
      let v01 := midpoint3 v0 v1
      let v02 := midpoint3 v0 v2
      let v12 := midpoint3 v1 v2
      match recursive_hausdorff_subdivision cp squared_error_bound fuel v0 v01 v02,
            recursive_hausdorff_subdivision cp squared_error_bound fuel v1 v01 v12,
            recursive_hausdorff_subdivision cp squared_error_bound fuel v2 v02 v12,
            recursive_hausdorff_subdivision cp squared_error_bound fuel v01 v02 v12 with
      | some a, some b, some c, some d => some (max (max a b) (max c d))
      | _, _, _, _ => none

/-- C4: evaluation of the grid-spacing default at a concrete mesh.  On the mesh whose only
edge runs from (0,0,0) to (2,0,0) (shortest non-degenerate edge length 2), grid sampling
with no `grid_spacing` parameter uses spacing 4: `procede` feeds the raw return value of
`get_minimum_edge_length` — the squared length of the shortest non-degenerate edge — to
`internal_sample_triangles`, while the claim (and the `\cgalParamDefault` documentation of
`grid_spacing`) says the length itself, 2, is used. -/
theorem C4_code_eval :
    procede_grid_spacing 0 [(⟨0, 0, 0⟩, ⟨2, 0, 0⟩)] = 4 ∧
    is_shortest_edge_length [(⟨0, 0, 0⟩, ⟨2, 0, 0⟩)] 2 ∧
    procede_grid_spacing 0 [(⟨0, 0, 0⟩, ⟨2, 0, 0⟩)] ≠ 2 := by
  refine ⟨?_, ⟨by norm_num, ?_⟩, ?_⟩ <;>
    norm_num [procede_grid_spacing, get_minimum_edge_length, min_sq_fold, msf_step,
      squared_distance, is_shortest_edge_length, dblMax]

/-- C5: evaluation of the Monte Carlo per-face count at a concrete input.  For a face of
area 1/2 with `number_of_points_per_area_unit = 100`, the source computes
`max(1, (size_t)(ceil(1/2) * 100)) = 100` — the `std::ceil` closes over the area alone —
while the claim says `max(1, ceil(1/2 * 100)) = 50`. -/
theorem C5_code_eval :
    mc_nb_points_per_face (1 / 2) 100 = 100 ∧
    claimed_mc_nb_points_per_face (1 / 2) 100 = 50 ∧
    mc_nb_points_per_face (1 / 2) 100 ≠ claimed_mc_nb_points_per_face (1 / 2) 100 := by
  have hc : (⌈(1:ℚ)/2⌉ : ℤ) = 1 := by
    rw [Int.ceil_eq_iff]
    norm_num
  have hc2 : (⌈(1:ℚ)/2 * 100⌉ : ℤ) = 50 := by
    rw [Int.ceil_eq_iff]
    norm_num
  have h1 : mc_nb_points_per_face (1 / 2) 100 = 100 := by
    rw [mc_nb_points_per_face, hc]
    norm_num
    rfl
  have h2 : claimed_mc_nb_points_per_face (1 / 2) 100 = 50 := by
    rw [claimed_mc_nb_points_per_face, hc2]
    rfl
  exact ⟨h1, h2, by rw [h1, h2]; norm_num⟩

/-- C6: evaluation of the query trace of `approximate_Hausdorff_distance` at a concrete
input.  With two sample points whose spatial sort reverses them (the external
`CGAL::spatial_sort` is instantiated with `List.reverse` here), the implementation queries
the points in the original input order — the spatially sorted copy `sample_points` is
discarded, since the impl is called on `original_sample_points` — whereas the claim says
the queries run over the sorted sequence. -/
theorem C6_code_eval :
    approximate_Hausdorff_distance_queries List.reverse (fun q _ => q)
        [⟨0, 0, 0⟩, ⟨1, 0, 0⟩] ⟨0, 0, 0⟩
      = [(⟨0, 0, 0⟩, ⟨0, 0, 0⟩), (⟨1, 0, 0⟩, ⟨0, 0, 0⟩)] ∧
    claimed_Hausdorff_distance_queries List.reverse (fun q _ => q)
        [⟨0, 0, 0⟩, ⟨1, 0, 0⟩] ⟨0, 0, 0⟩
      = [(⟨1, 0, 0⟩, ⟨0, 0, 0⟩), (⟨0, 0, 0⟩, ⟨1, 0, 0⟩)] ∧
    approximate_Hausdorff_distance_queries List.reverse (fun q _ => q)
        [⟨0, 0, 0⟩, ⟨1, 0, 0⟩] ⟨0, 0, 0⟩
      ≠ claimed_Hausdorff_distance_queries List.reverse (fun q _ => q)
        [⟨0, 0, 0⟩, ⟨1, 0, 0⟩] ⟨0, 0, 0⟩ := by
  refine ⟨by decide, by decide, by decide⟩

/-- Invariant of the `get_minimum_edge_length` fold: starting from any accumulator, the
result is the accumulator itself or a strictly positive list element, it never exceeds the
accumulator, and it is a lower bound on every strictly positive list element. -/
theorem msf_aux (sqs : List ℚ) : ∀ acc : ℚ,
    (List.foldl msf_step acc sqs = acc ∨
      (List.foldl msf_step acc sqs ∈ sqs ∧ 0 < List.foldl msf_step acc sqs)) ∧
    List.foldl msf_step acc sqs ≤ acc ∧
    (∀ s ∈ sqs, 0 < s → List.foldl msf_step acc sqs ≤ s) := by
  induction sqs with
  | nil => intro acc; simp
  | cons a tl ih =>
    intro acc
    obtain ⟨hid, hle, hmin⟩ := ih (msf_step acc a)
    by_cases h : 0 < a ∧ a < acc
    · have hs : msf_step acc a = a := by simp [msf_step, h]
      rw [hs] at hid hle hmin
      rw [List.foldl_cons, hs]
      refine ⟨?_, le_trans hle (le_of_lt h.2), ?_⟩
      · rcases hid with h1 | h1
        · exact Or.inr ⟨by simp [h1], by rw [h1]; exact h.1⟩
        · exact Or.inr ⟨List.mem_cons_of_mem _ h1.1, h1.2⟩
      · intro s hs2 hspos
        rcases List.mem_cons.mp hs2 with rfl | hmem
        · exact hle
        · exact hmin s hmem hspos
    · have hs : msf_step acc a = acc := by simp only [msf_step, if_neg h]
      rw [hs] at hid hle hmin
      rw [List.foldl_cons, hs]
      refine ⟨?_, hle, ?_⟩
      · rcases hid with h1 | h1
        · exact Or.inl h1
        · exact Or.inr ⟨List.mem_cons_of_mem _ h1.1, h1.2⟩
      · intro s hs2 hspos
        rcases List.mem_cons.mp hs2 with rfl | hmem
        · rcases not_and_or.mp h with h2 | h2
          · exact absurd hspos h2
          · exact le_trans hle (not_lt.mp h2)
        · exact hmin s hmem hspos

/-- C9: on any edge list (of a mesh or of a triangle soup) whose squared edge lengths all
fit below `dblMax` and which contains at least one edge of strictly positive length,
`get_minimum_edge_length` ignores the zero-length edges and returns the minimum squared
length over the strictly positive edges only; that value is strictly positive, so the
density defaults derived from it (`2 / min` points per area unit, since `min` is the
squared shortest edge length, and `1 / sqrt(min)` points per distance unit) never divide
by zero. -/
theorem C9_min_edge_positive (edges : List (Point3 × Point3))
    (hbound : ∀ e ∈ edges, squared_distance e.1 e.2 < dblMax)
    (hpos : ∃ e ∈ edges, 0 < squared_distance e.1 e.2) :
    0 < get_minimum_edge_length edges ∧
    (∃ e ∈ edges, 0 < squared_distance e.1 e.2 ∧
        get_minimum_edge_length edges = squared_distance e.1 e.2) ∧
    (∀ e ∈ edges, 0 < squared_distance e.1 e.2 →
        get_minimum_edge_length edges ≤ squared_distance e.1 e.2) ∧
    (∀ e0 : Point3 × Point3, squared_distance e0.1 e0.2 = 0 →
        get_minimum_edge_length (e0 :: edges) = get_minimum_edge_length edges) ∧
    0 < 2 / get_minimum_edge_length edges := by
  obtain ⟨e0, he0, he0pos⟩ := hpos
  have hsq0 : squared_distance e0.1 e0.2 ∈ edges.map (fun e => squared_distance e.1 e.2) :=
    List.mem_map.mpr ⟨e0, he0, rfl⟩
  obtain ⟨hid, _hle, hmin⟩ := msf_aux (edges.map (fun e => squared_distance e.1 e.2)) dblMax
  have hr_le : min_sq_fold (edges.map (fun e => squared_distance e.1 e.2)) ≤
      squared_distance e0.1 e0.2 := hmin _ hsq0 he0pos
  have hr_ne : min_sq_fold (edges.map (fun e => squared_distance e.1 e.2)) ≠ dblMax := by
    intro hcontr
    rw [min_sq_fold] at hcontr
    rw [min_sq_fold, hcontr] at hr_le
    exact absurd (lt_of_le_of_lt hr_le (hbound e0 he0)) (lt_irrefl _)
  have hmem : min_sq_fold (edges.map (fun e => squared_distance e.1 e.2)) ∈
        edges.map (fun e => squared_distance e.1 e.2) ∧
      0 < min_sq_fold (edges.map (fun e => squared_distance e.1 e.2)) := by
    rcases hid with h1 | h1
    · exact absurd h1 hr_ne
    · exact h1
  obtain ⟨ew, hew, hewq⟩ := List.mem_map.mp hmem.1
  refine ⟨hmem.2, ⟨ew, hew, by rw [hewq]; exact hmem.2, hewq.symm⟩, ?_, ?_, ?_⟩
  · intro e he hepos
    exact hmin _ (List.mem_map.mpr ⟨e, he, rfl⟩) hepos
  · intro ez hz
    have : msf_step dblMax (squared_distance ez.1 ez.2) = dblMax := by
      simp [msf_step, hz]
    simp only [get_minimum_edge_length, min_sq_fold, List.map_cons, List.foldl_cons, this]
  · exact div_pos (by norm_num) hmem.2

/-- C9 witness: a soup-style edge list with one degenerate (zero-length) edge and one edge
of squared length 4: the minimum is 4, positive. -/
theorem C9_witness :
    (∀ e ∈ [((⟨0,0,0⟩ : Point3), (⟨0,0,0⟩ : Point3)), (⟨0,0,0⟩, ⟨2,0,0⟩)],
        squared_distance e.1 e.2 < dblMax) ∧
    0 < get_minimum_edge_length
        [((⟨0,0,0⟩ : Point3), (⟨0,0,0⟩ : Point3)), (⟨0,0,0⟩, ⟨2,0,0⟩)] := by
  have hbound : ∀ e ∈ [((⟨0,0,0⟩ : Point3), (⟨0,0,0⟩ : Point3)), (⟨0,0,0⟩, ⟨2,0,0⟩)],
      squared_distance e.1 e.2 < dblMax := by
    intro e he
    rcases List.mem_cons.mp he with rfl | he2
    · norm_num [squared_distance, dblMax]
    · rcases List.mem_cons.mp he2 with rfl | he3
      · norm_num [squared_distance, dblMax]
      · exact absurd he3 (List.not_mem_nil _)
  have hpos : ∃ e ∈ [((⟨0,0,0⟩ : Point3), (⟨0,0,0⟩ : Point3)), (⟨0,0,0⟩, ⟨2,0,0⟩)],
      0 < squared_distance e.1 e.2 := by
    refine ⟨(⟨0,0,0⟩, ⟨2,0,0⟩), by simp, by norm_num [squared_distance]⟩
  exact ⟨hbound, (C9_min_edge_positive _ hbound hpos).1⟩

/-- `if b > a then b else a` is `max a b`. -/
theorem ite_gt_eq_max (a b : ℚ) : (if b > a then b else a) = max a b := by
  by_cases h : a < b
  · rw [if_pos h, max_eq_right (le_of_lt h)]
  · rw [if_neg h, max_eq_left (not_lt.mp h)]

/-- If the closest-point result does not depend on the hint, the sequential query loop is
the fold of `max` over the per-point distances. -/
theorem seq_pass_eq_fold (f : ℚ → ℚ) (cp : Point3 → Point3 → Point3) (dv : Point3 → ℚ)
    (hdv : ∀ pt h, f (squared_distance (cp pt h) pt) = dv pt) :
    ∀ (l : List Point3) (h : Point3) (a : ℚ),
      seq_pass f cp l h a = l.foldl (fun acc pt => max acc (dv pt)) a := by
  intro l
  induction l with
  | nil => intro h a; rfl
  | cons pt rest ih =>
    intro h a
    simp only [seq_pass, List.foldl_cons]
    rw [hdv pt h, ih, ite_gt_eq_max]

/-- C10: the result of the sequential mode of `approximate_Hausdorff_distance_impl` does
not depend on the initial warm-start hint, provided `closest_point` returns the same
(exact nearest) point whatever hint it is warm-started with. -/
theorem C10_hint_independent (f : ℚ → ℚ) (cp : Point3 → Point3 → Point3)
    (hind : ∀ q h1 h2, cp q h1 = cp q h2) (pts : List Point3) (h1 h2 : Point3) :
    approximate_Hausdorff_distance_impl_seq f cp pts h1 =
      approximate_Hausdorff_distance_impl_seq f cp pts h2 := by
  have hdv : ∀ pt h, f (squared_distance (cp pt h) pt) =
      f (squared_distance (cp pt h1) pt) := by
    intro pt h
    rw [hind pt h h1]
  rw [approximate_Hausdorff_distance_impl_seq, approximate_Hausdorff_distance_impl_seq,
    seq_pass_eq_fold f cp _ hdv pts h1 0, seq_pass_eq_fold f cp _ hdv pts h2 0]

/-- C10 witness: with a hint-independent closest-point function, two runs from different
hints agree on a concrete two-point sample. -/
theorem C10_witness :
    approximate_Hausdorff_distance_impl_seq id (fun q _ => q)
        [⟨1, 0, 0⟩, ⟨2, 0, 0⟩] ⟨0, 0, 0⟩ =
      approximate_Hausdorff_distance_impl_seq id (fun q _ => q)
        [⟨1, 0, 0⟩, ⟨2, 0, 0⟩] ⟨5, 5, 5⟩ :=
  C10_hint_independent id (fun q _ => q) (fun _ _ _ => rfl)
    [⟨1, 0, 0⟩, ⟨2, 0, 0⟩] ⟨0, 0, 0⟩ ⟨5, 5, 5⟩

/-- Pulling a `max` argument out of a fold of `max`. -/
theorem foldl_max_pull (l : List ℚ) : ∀ a b : ℚ,
    List.foldl max (max a b) l = max a (List.foldl max b l) := by
  induction l with
  | nil => intro a b; rfl
  | cons x tl ih =>
    intro a b
    rw [List.foldl_cons, List.foldl_cons, max_assoc, ih]

/-- A fold of `max` never goes below its starting accumulator. -/
theorem le_foldl_max (l : List ℚ) : ∀ a : ℚ, a ≤ List.foldl max a l := by
  induction l with
  | nil => intro a; exact le_refl a
  | cons x tl ih =>
    intro a
    exact le_trans (le_max_left a x) (ih (max a x))

/-- A fold of `max` over a flattened list equals the fold of the per-chunk folds, for a
nonnegative starting accumulator. -/
theorem foldl_max_flatten (L : List (List ℚ)) : ∀ b : ℚ, 0 ≤ b →
    List.foldl max b (L.map (fun l => List.foldl max 0 l)) = List.foldl max b L.flatten := by
  induction L with
  | nil => intro b _; rfl
  | cons l rest ih =>
    intro b hb
    rw [List.map_cons, List.foldl_cons, List.flatten_cons, List.foldl_append]
    have hl : List.foldl max b l = max b (List.foldl max 0 l) := by
      have : max b 0 = b := max_eq_left hb
      rw [← this, foldl_max_pull, this]
    rw [← hl]
    exact ih (List.foldl max b l) (le_trans hb (le_foldl_max l b))

/-- C3: on a non-empty sample range, the parallel mode (per-chunk local hint and local
maximum, combined by a max-reduction started at -1) returns the same maximum distance as
the sequential mode, for every splitting of the samples into contiguous chunks, provided
`closest_point` returns the same point whatever hint it is warm-started with. -/
theorem C3_parallel_eq_sequential (f : ℚ → ℚ) (cp : Point3 → Point3 → Point3)
    (hint : Point3) (chunks : List (List Point3)) (pts : List Point3)
    (hind : ∀ q h1 h2, cp q h1 = cp q h2)
    (hflat : chunks.flatten = pts)
    (hne : pts ≠ []) :
    approximate_Hausdorff_distance_impl_par f cp hint chunks =
      approximate_Hausdorff_distance_impl_seq f cp pts hint := by
  subst hflat
  have hdv : ∀ pt h, f (squared_distance (cp pt h) pt) =
      f (squared_distance (cp pt hint) pt) := by
    intro pt h
    rw [hind pt h hint]
  set dv : Point3 → ℚ := fun pt => f (squared_distance (cp pt hint) pt) with hdvdef
  have hseq : approximate_Hausdorff_distance_impl_seq f cp chunks.flatten hint =
      List.foldl max 0 (chunks.flatten.map dv) := by
    rw [approximate_Hausdorff_distance_impl_seq, seq_pass_eq_fold f cp dv hdv, ← List.foldl_map]
  have hpar : approximate_Hausdorff_distance_impl_par f cp hint chunks =
      List.foldl max (-1) ((chunks.map (List.map dv)).map (fun l => List.foldl max 0 l)) := by
    rw [approximate_Hausdorff_distance_impl_par, List.map_map]
    have : ∀ (L : List (List Point3)) (acc : ℚ),
        List.foldl (fun distance ch => if seq_pass f cp ch hint 0 > distance
            then seq_pass f cp ch hint 0 else distance) acc L =
          List.foldl max acc (L.map ((fun l => List.foldl max 0 l) ∘ List.map dv)) := by
      intro L
      induction L with
      | nil => intro acc; rfl
      | cons ch rest ihL =>
        intro acc
        rw [List.foldl_cons, List.map_cons, List.foldl_cons, ihL]
        congr 1
        rw [ite_gt_eq_max, seq_pass_eq_fold f cp dv hdv, Function.comp_apply, ← List.foldl_map]
    exact this chunks (-1)
  rw [hseq, hpar]
  rcases chunks with _ | ⟨c1, rest⟩
  · exact absurd rfl hne
  · rw [List.map_cons, List.map_cons, List.foldl_cons, List.flatten_cons, List.map_append,
      List.foldl_append]
    have h1 : max (-1 : ℚ) (List.foldl max 0 (c1.map dv)) = List.foldl max 0 (c1.map dv) :=
      max_eq_right (le_trans (by norm_num) (le_foldl_max (c1.map dv) 0))
    rw [h1, foldl_max_flatten (rest.map (List.map dv)) _ (le_foldl_max (c1.map dv) 0),
      ← List.map_flatten]

/-- C3 witness: one chunk per sample point, two sample points. -/
theorem C3_witness :
    approximate_Hausdorff_distance_impl_par id (fun q _ => q) ⟨0, 0, 0⟩
        [[⟨1, 0, 0⟩], [⟨2, 0, 0⟩]] =
      approximate_Hausdorff_distance_impl_seq id (fun q _ => q)
        [⟨1, 0, 0⟩, ⟨2, 0, 0⟩] ⟨0, 0, 0⟩ :=
  C3_parallel_eq_sequential id (fun q _ => q) ⟨0, 0, 0⟩ [[⟨1, 0, 0⟩], [⟨2, 0, 0⟩]]
    [⟨1, 0, 0⟩, ⟨2, 0, 0⟩] (fun _ _ _ => rfl) rfl (by simp)

/-- The segment joining the midpoints of two sides issuing from a common vertex has a
quarter of the squared length of the opposite side. -/
theorem sq_mid_mid_left (a b c : Point3) :
    squared_distance (midpoint3 a b) (midpoint3 a c) = squared_distance b c / 4 := by
  simp only [squared_distance, midpoint3]
  ring

/-- Halving an edge quarters its squared length (first endpoint kept). -/
theorem sq_end_mid (a b : Point3) :
    squared_distance a (midpoint3 a b) = squared_distance a b / 4 := by
  simp only [squared_distance, midpoint3]
  ring

/-- Halving an edge quarters its squared length (second endpoint kept). -/
theorem sq_end_mid_right (a b : Point3) :
    squared_distance b (midpoint3 a b) = squared_distance a b / 4 := by
  simp only [squared_distance, midpoint3]
  ring

/-- Midpoints of two sides sharing their second endpoint. -/
theorem sq_mid_mid_right (a b c : Point3) :
    squared_distance (midpoint3 a c) (midpoint3 b c) = squared_distance a b / 4 := by
  simp only [squared_distance, midpoint3]
  ring

/-- Midpoints of sides chained through a common vertex `b`. -/
theorem sq_mid_mid_chain (a b c : Point3) :
    squared_distance (midpoint3 a b) (midpoint3 b c) = squared_distance a c / 4 := by
  simp only [squared_distance, midpoint3]
  ring

/-- `max` distributes over division by 4. -/
theorem max_div_four (a b : ℚ) : max (a / 4) (b / 4) = max a b / 4 :=
  max_div_div_right (by norm_num) a b

/-- Each of the four sub-triangles produced by the midpoint quadrisection has exactly a
quarter of the parent's maximal squared edge length. -/
theorem quadrisect_max_sq_edge (v0 v1 v2 : Point3) :
    ∀ t ∈ quadrisect ⟨v0, v1, v2⟩,
      max_sq_edge t.v0 t.v1 t.v2 = max_sq_edge v0 v1 v2 / 4 := by
  intro t ht
  simp only [quadrisect, List.mem_cons, List.not_mem_nil, or_false] at ht
  rcases ht with rfl | rfl | rfl | rfl <;>
    simp [max_sq_edge, sq_end_mid, sq_end_mid_right, sq_mid_mid_left,
      sq_mid_mid_right, sq_mid_mid_chain, max_div_four, sup_comm, sup_assoc,
      sup_left_comm]

/-- With fuel `k + 1`, the recursion succeeds whenever the maximal squared edge length is
below `4 ^ k` times the squared error bound. -/
theorem recursive_hausdorff_subdivision_isSome (cp : Point3 → Point3) (sqeb : ℚ) :
    ∀ k : ℕ, ∀ v0 v1 v2 : Point3, max_sq_edge v0 v1 v2 < 4 ^ k * sqeb →
      (recursive_hausdorff_subdivision cp sqeb (k + 1) v0 v1 v2).isSome := by
  intro k
  induction k with
  | zero =>
    intro v0 v1 v2 h
    rw [pow_zero, one_mul] at h
    simp [recursive_hausdorff_subdivision, if_pos h]
  | succ k ih =>
    intro v0 v1 v2 h
    by_cases hb : max_sq_edge v0 v1 v2 < sqeb
    · simp [recursive_hausdorff_subdivision, if_pos hb]
    · have hquater : max_sq_edge v0 v1 v2 / 4 < 4 ^ k * sqeb := by
        rw [div_lt_iff (by norm_num : (0:ℚ) < 4)]
        calc max_sq_edge v0 v1 v2 < 4 ^ (k + 1) * sqeb := h
        _ = 4 ^ k * sqeb * 4 := by ring
      have hc := quadrisect_max_sq_edge v0 v1 v2
      simp only [quadrisect, List.mem_cons, List.not_mem_nil, or_false,
        forall_eq_or_imp, forall_eq] at hc
      have h1 := ih _ _ _ (hc.1 ▸ hquater)
      have h2 := ih _ _ _ (hc.2.1 ▸ hquater)
      have h3 := ih _ _ _ (hc.2.2.1 ▸ hquater)
      have h4 := ih _ _ _ (hc.2.2.2 ▸ hquater)
      obtain ⟨a, ha⟩ := Option.isSome_iff_exists.mp h1
      obtain ⟨b, hb2⟩ := Option.isSome_iff_exists.mp h2
      obtain ⟨c, hc3⟩ := Option.isSome_iff_exists.mp h3
      obtain ⟨d, hd⟩ := Option.isSome_iff_exists.mp h4
      rw [recursive_hausdorff_subdivision, if_neg hb]
      simp only [ha, hb2, hc3, hd, Option.isSome_some]

/-- C8: for every error bound > 0 and every triangle with rational coordinates, the
recursive quadrisection of the naive validator terminates: each midpoint subdivision
quarters the maximal squared edge length (i.e. halves the maximal edge length), so after
finitely many levels all edges are below the error bound and every recursion branch
reaches its base case (the fueled recursion returns `some` for a large enough depth). -/
theorem C8_subdivision_terminates (cp : Point3 → Point3) (v0 v1 v2 : Point3)
    (error_bound : ℚ) (hpos : 0 < error_bound) :
    (∀ t ∈ quadrisect ⟨v0, v1, v2⟩,
        max_sq_edge t.v0 t.v1 t.v2 = max_sq_edge v0 v1 v2 / 4) ∧
    ∃ fuel : ℕ, (recursive_hausdorff_subdivision cp (error_bound * error_bound)
        fuel v0 v1 v2).isSome := by
  have hsq : 0 < error_bound * error_bound := mul_pos hpos hpos
  obtain ⟨k, hk⟩ := pow_unbounded_of_one_lt
    (max_sq_edge v0 v1 v2 / (error_bound * error_bound)) (by norm_num : (1:ℚ) < 4)
  refine ⟨quadrisect_max_sq_edge v0 v1 v2, k + 1, ?_⟩
  exact recursive_hausdorff_subdivision_isSome cp _ k v0 v1 v2
    (by rwa [div_lt_iff hsq] at hk)

/-- C8 witness: the recursion terminates on the unit right triangle with error bound 1. -/
theorem C8_witness :
    (0:ℚ) < 1 ∧
    ∃ fuel : ℕ, (recursive_hausdorff_subdivision id ((1:ℚ) * 1)
        fuel ⟨0, 0, 0⟩ ⟨1, 0, 0⟩ ⟨0, 1, 0⟩).isSome :=
  ⟨by norm_num,
   (C8_subdivision_terminates id ⟨0, 0, 0⟩ ⟨1, 0, 0⟩ ⟨0, 1, 0⟩ 1 (by norm_num)).2⟩

/-- Sum of a function mapped over `List.range` as a `Finset` sum. -/
theorem list_sum_map_range (g : ℕ → ℕ) : ∀ k : ℕ,
    ((List.range k).map g).sum = ∑ x in Finset.range k, g x := by
  intro k
  induction k with
  | zero => simp
  | succ k ih =>
    rw [List.range_succ, List.map_append, List.sum_append, Finset.sum_range_succ, ih]
    simp

/-- C7: `triangle_grid_sampling` on a triangle with edge lengths `e1 = |p0p1|`,
`e2 = |p0p2|` and spacing `s > 0` emits exactly the interior lattice points with
barycentric coordinates `(1-(i+j)/n, i/n, j/n)` for `1 ≤ i`, `1 ≤ j`, `i + j < n` where
`n = ceil(max(e1,e2)/s)`; consequently the emitted count is
`Σ_{i=1}^{n-1} (n-i-1)` (which is the claim's count, `0` when `n ≤ 1`), and the output is
empty for `n ≤ 1`. -/
theorem C7_grid_points (p0 p1 p2 : Point3) (e1 e2 s : ℚ)
    (hs : 0 < s) (he1 : 0 ≤ e1) (he2 : 0 ≤ e2) :
    (∀ pt, pt ∈ triangle_grid_sampling p0 p1 p2 e1 e2 s ↔
      ∃ i j : ℕ, 1 ≤ i ∧ 1 ≤ j ∧ (i : ℤ) + (j : ℤ) < ⌈max e1 e2 / s⌉ ∧
        pt = baryPoint p0 p1 p2
          (1 - ((i : ℚ) + (j : ℚ)) / ((⌈max e1 e2 / s⌉ : ℤ) : ℚ))
          ((i : ℚ) / ((⌈max e1 e2 / s⌉ : ℤ) : ℚ))
          ((j : ℚ) / ((⌈max e1 e2 / s⌉ : ℤ) : ℚ))) ∧
    (triangle_grid_sampling p0 p1 p2 e1 e2 s).length =
      ∑ i in Finset.Icc 1 (⌈max e1 e2 / s⌉.toNat - 1), (⌈max e1 e2 / s⌉.toNat - i - 1) ∧
    (⌈max e1 e2 / s⌉ ≤ 1 → triangle_grid_sampling p0 p1 p2 e1 e2 s = []) := by
  have hceil : max ⌈e1 / s⌉ ⌈e2 / s⌉ = ⌈max e1 e2 / s⌉ := by
    rw [← max_div_div_right hs.le e1 e2]
    exact (Int.ceil_mono.map_max).symm
  set n : ℤ := ⌈max e1 e2 / s⌉ with hn
  have hn0 : 0 ≤ n :=
    Int.ceil_nonneg (div_nonneg (le_trans he1 (le_max_left e1 e2)) hs.le)
  set N : ℕ := n.toNat with hNdef
  have hNZ : (N : ℤ) = n := Int.toNat_of_nonneg hn0
  have hNQ : (N : ℚ) = ((n : ℤ) : ℚ) := by exact_mod_cast hNZ
  clear_value N
  clear_value n
  have hdef : triangle_grid_sampling p0 p1 p2 e1 e2 s =
      (List.range (N - 1)).flatMap (fun (i0 : ℕ) =>
        (List.range (N - (i0 + 1) - 1)).map (fun (j0 : ℕ) =>
          baryPoint p0 p1 p2
            (1 - (((i0 : ℚ) + 1) + ((j0 : ℚ) + 1)) / (N : ℚ))
            (((i0 : ℚ) + 1) / (N : ℚ))
            (((j0 : ℚ) + 1) / (N : ℚ)))) := by
    simp only [triangle_grid_sampling]
    rw [hceil, ← hNdef]
  refine ⟨?_, ?_, ?_⟩
  · intro pt
    rw [hdef]
    simp only [List.mem_flatMap, List.mem_map, List.mem_range]
    constructor
    · rintro ⟨i0, hi0, j0, hj0, rfl⟩
      refine ⟨i0 + 1, j0 + 1, Nat.succ_le_succ (Nat.zero_le _),
        Nat.succ_le_succ (Nat.zero_le _), by omega, ?_⟩
      rw [← hNQ]
      congr 1 <;> push_cast <;> ring
    · rintro ⟨i, j, hi, hj, hlt, rfl⟩
      refine ⟨i - 1, by omega, j - 1, by omega, ?_⟩
      rw [← hNQ]
      congr 1 <;> push_cast [Nat.cast_sub hi, Nat.cast_sub hj] <;> ring
  · rw [hdef, List.length_flatMap]
    simp only [Function.comp_def, List.length_map, List.length_range]
    rw [list_sum_map_range (fun i0 => N - (i0 + 1) - 1) (N - 1),
      ← Nat.Ico_succ_right, Finset.sum_Ico_eq_sum_range]
    have hr : N - 1 + 1 - 1 = N - 1 := by omega
    rw [hr]
    exact Finset.sum_congr rfl (fun x _ => by omega)
  · intro h
    have hz : N - 1 = 0 := by omega
    rw [hdef, hz]
    rfl

/-- C7 witness: the single triangle (0,0,0),(1,0,0),(0,1,0) with spacing 1/2 has
`n = ceil(1/(1/2)) = 2` and interior point count `0` (spec scenario 3). -/
theorem C7_witness :
    (0:ℚ) < 1/2 ∧
    (triangle_grid_sampling ⟨0,0,0⟩ ⟨1,0,0⟩ ⟨0,1,0⟩ 1 1 (1/2)).length =
      ∑ i in Finset.Icc 1 (⌈max (1:ℚ) 1 / (1/2)⌉.toNat - 1),
        (⌈max (1:ℚ) 1 / (1/2)⌉.toNat - i - 1) :=
  ⟨by norm_num,
   (C7_grid_points ⟨0,0,0⟩ ⟨1,0,0⟩ ⟨0,1,0⟩ 1 1 (1/2) (by norm_num) (by norm_num)
     (by norm_num)).2.1⟩

/-- `popMax` returns `none` exactly on the empty queue. -/
theorem popMax_eq_none_iff (l : List Candidate_triangle) : popMax l = none ↔ l = [] := by
  cases l with
  | nil => simp [popMax]
  | cons c rest =>
    constructor
    · intro h
      cases hr : popMax rest with
      | none => simp [popMax, hr] at h
      | some mr =>
        obtain ⟨m, r⟩ := mr
        by_cases hlt : c.m_bounds.2 < m.m_bounds.2 <;> simp [popMax, hr, hlt] at h
    · intro h
      exact absurd h (by simp)

/-- The popped candidate belongs to the queue. -/
theorem popMax_mem : ∀ {l : List Candidate_triangle} {t : Candidate_triangle}
    {r : List Candidate_triangle}, popMax l = some (t, r) → t ∈ l := by
  intro l
  induction l with
  | nil => intro t r h; exact absurd h (by simp [popMax])
  | cons c rest ih =>
    intro t r h
    cases hr : popMax rest with
    | none =>
      simp only [popMax, hr, Option.some.injEq, Prod.mk.injEq] at h
      exact h.1 ▸ List.mem_cons_self c rest
    | some mr =>
      obtain ⟨m, r2⟩ := mr
      by_cases hlt : c.m_bounds.2 < m.m_bounds.2
      · simp only [popMax, hr, if_pos hlt, Option.some.injEq, Prod.mk.injEq] at h
        exact List.mem_cons_of_mem c (h.1 ▸ ih hr)
      · simp only [popMax, hr, if_neg hlt, Option.some.injEq, Prod.mk.injEq] at h
        exact h.1 ▸ List.mem_cons_self c rest

/-- Every element of the remaining queue belongs to the original queue. -/
theorem popMax_rest_mem : ∀ {l : List Candidate_triangle} {t : Candidate_triangle}
    {r : List Candidate_triangle}, popMax l = some (t, r) → ∀ x ∈ r, x ∈ l := by
  intro l
  induction l with
  | nil => intro t r h; exact absurd h (by simp [popMax])
  | cons c rest ih =>
    intro t r h x hx
    cases hr : popMax rest with
    | none =>
      simp only [popMax, hr, Option.some.injEq, Prod.mk.injEq] at h
      rw [← h.2] at hx
      exact absurd hx (List.not_mem_nil x)
    | some mr =>
      obtain ⟨m, r2⟩ := mr
      by_cases hlt : c.m_bounds.2 < m.m_bounds.2
      · simp only [popMax, hr, if_pos hlt, Option.some.injEq, Prod.mk.injEq] at h
        rw [← h.2] at hx
        rcases List.mem_cons.mp hx with rfl | hx2
        · exact List.mem_cons_self x rest
        · exact List.mem_cons_of_mem c (ih hr x hx2)
      · simp only [popMax, hr, if_neg hlt, Option.some.injEq, Prod.mk.injEq] at h
        rw [← h.2] at hx
        exact List.mem_cons_of_mem c hx

/-- The popped candidate has the maximal upper bound of the queue. -/
theorem popMax_is_max : ∀ {l : List Candidate_triangle} {t : Candidate_triangle}
    {r : List Candidate_triangle}, popMax l = some (t, r) →
      ∀ x ∈ l, x.m_bounds.2 ≤ t.m_bounds.2 := by
  intro l
  induction l with
  | nil => intro t r h; exact absurd h (by simp [popMax])
  | cons c rest ih =>
    intro t r h x hx
    cases hr : popMax rest with
    | none =>
      simp only [popMax, hr, Option.some.injEq, Prod.mk.injEq] at h
      have hnil : rest = [] := (popMax_eq_none_iff rest).mp hr
      rw [hnil] at hx
      rcases List.mem_cons.mp hx with rfl | hx2
      · exact h.1 ▸ le_refl _
      · exact absurd hx2 (List.not_mem_nil x)
    | some mr =>
      obtain ⟨m, r2⟩ := mr
      by_cases hlt : c.m_bounds.2 < m.m_bounds.2
      · simp only [popMax, hr, if_pos hlt, Option.some.injEq, Prod.mk.injEq] at h
        rcases List.mem_cons.mp hx with rfl | hx2
        · exact h.1 ▸ le_of_lt hlt
        · exact h.1 ▸ ih hr x hx2
      · simp only [popMax, hr, if_neg hlt, Option.some.injEq, Prod.mk.injEq] at h
        rcases List.mem_cons.mp hx with rfl | hx2
        · exact h.1 ▸ le_refl _
        · exact h.1 ▸ le_trans (ih hr x hx2) (not_lt.mp hlt)

/-- The loop invariant of the branch-and-bound search: the global lower bound never
exceeds the global upper bound, and the global upper bound dominates the upper bound of
every queued candidate. -/
def BEInv (st : BEState) : Prop :=
  st.global_lower ≤ st.global_upper ∧
  ∀ c ∈ st.queue, c.m_bounds.2 ≤ st.global_upper

/-- Modelled from the spec: the sub-triangle bound computation of the traversal traits
tightens bounds — it returns a pair `(lower, upper)` with `lower ≤ upper` and with the
upper bound no larger than the parent candidate's upper bound. -/
def BEOraclesSound (O : BEOracles) : Prop :=
  ∀ pb t, (O.subBounds pb t).1 ≤ (O.subBounds pb t).2 ∧ (O.subBounds pb t).2 ≤ pb.2

/-- The lower-bound update fold of the subdivision step never decreases its accumulator. -/
theorem lower_fold_ge (l : List Candidate_triangle) : ∀ a : ℚ,
    a ≤ l.foldl (fun gl c => if c.m_bounds.1 > gl then c.m_bounds.1 else gl) a := by
  induction l with
  | nil => intro a; exact le_refl a
  | cons c tl ih =>
    intro a
    refine le_trans ?_ (ih (if c.m_bounds.1 > a then c.m_bounds.1 else a))
    by_cases h : c.m_bounds.1 > a
    · rw [if_pos h]; exact le_of_lt h
    · rw [if_neg h]

/-- The lower-bound update fold stays below any bound dominating both the accumulator and
all the candidates' lower bounds. -/
theorem lower_fold_le (l : List Candidate_triangle) : ∀ a B : ℚ, a ≤ B →
    (∀ c ∈ l, c.m_bounds.1 ≤ B) →
    l.foldl (fun gl c => if c.m_bounds.1 > gl then c.m_bounds.1 else gl) a ≤ B := by
  induction l with
  | nil => intro a B h _; exact h
  | cons c tl ih =>
    intro a B h hall
    rw [List.foldl_cons]
    refine ih _ B ?_ (fun x hx => hall x (List.mem_cons_of_mem c hx))
    show (if c.m_bounds.1 > a then c.m_bounds.1 else a) ≤ B
    by_cases hc : c.m_bounds.1 > a
    · rw [if_pos hc]; exact hall c (List.mem_cons_self c tl)
    · rw [if_neg hc]; exact h

/-- C2: one iteration of the branch-and-bound loop never decreases the global lower bound
and never increases the global upper bound, and it preserves the loop invariant — hence,
by iteration, the Global Bounds pair is monotone throughout the whole run after
initialization. -/
theorem C2_bounds_monotone (O : BEOracles) (error_bound : ℚ) (st : BEState)
    (hO : BEOraclesSound O) (hInv : BEInv st) :
    st.global_lower ≤ (bstep O error_bound st).global_lower ∧
    (bstep O error_bound st).global_upper ≤ st.global_upper ∧
    BEInv (bstep O error_bound st) := by
  cases hpop : popMax st.queue with
  | none =>
    simp only [bstep, hpop]
    exact ⟨le_refl _, le_refl _, hInv⟩
  | some tr =>
    obtain ⟨t, rest⟩ := tr
    have htmem : t ∈ st.queue := popMax_mem hpop
    have hrestmem : ∀ x ∈ rest, x ∈ st.queue := popMax_rest_mem hpop
    have htub : t.m_bounds.2 ≤ st.global_upper := hInv.2 t htmem
    simp only [bstep, hpop]
    by_cases hguard : t.m_bounds.2 > st.global_lower ∧
        t.m_bounds.2 - t.m_bounds.1 > error_bound
    · rw [if_pos hguard]
      by_cases hsame : O.closestPrimitive t.m_triangle.v0 = O.closestPrimitive t.m_triangle.v1 ∧
          O.closestPrimitive t.m_triangle.v1 = O.closestPrimitive t.m_triangle.v2
      · rw [if_pos hsame]
        exact ⟨le_of_lt hguard.1, le_refl _,
          htub, fun c hc => hInv.2 c (hrestmem c hc)⟩
      · rw [if_neg hsame]
        by_cases hedge : squared_distance t.m_triangle.v0 t.m_triangle.v1 <
              error_bound * error_bound ∧
            squared_distance t.m_triangle.v0 t.m_triangle.v2 <
              error_bound * error_bound ∧
            squared_distance t.m_triangle.v1 t.m_triangle.v2 <
              error_bound * error_bound
        · rw [if_pos hedge]
          exact ⟨le_of_lt hguard.1, le_refl _,
            htub, fun c hc => hInv.2 c (hrestmem c hc)⟩
        · rw [if_neg hedge]
          dsimp only
          set newcands := (quadrisect t.m_triangle).map
            (fun s => Candidate_triangle.mk s (O.subBounds t.m_bounds s)) with hnc
          set newLower := newcands.foldl
            (fun gl c => if c.m_bounds.1 > gl then c.m_bounds.1 else gl)
            st.global_lower with hnl
          have hcand_ub : ∀ c ∈ newcands, c.m_bounds.2 ≤ st.global_upper := by
            intro c hc
            rw [hnc] at hc
            obtain ⟨s, _, rfl⟩ := List.mem_map.mp hc
            exact le_trans (hO t.m_bounds s).2 htub
          have hcand_lb : ∀ c ∈ newcands, c.m_bounds.1 ≤ st.global_upper := by
            intro c hc
            refine le_trans ?_ (hcand_ub c hc)
            rw [hnc] at hc
            obtain ⟨s, _, rfl⟩ := List.mem_map.mp hc
            exact (hO t.m_bounds s).1
          have hlow_ge : st.global_lower ≤ newLower := lower_fold_ge newcands _
          have hlow_le : newLower ≤ st.global_upper :=
            lower_fold_le newcands _ _ hInv.1 hcand_lb
          have hq_ub : ∀ c ∈ rest ++ newcands, c.m_bounds.2 ≤ st.global_upper := by
            intro c hc
            rcases List.mem_append.mp hc with hc2 | hc2
            · exact hInv.2 c (hrestmem c hc2)
            · exact hcand_ub c hc2
          have hqne : rest ++ newcands ≠ [] := by
            rw [hnc]
            simp [quadrisect]
          obtain ⟨m, r2, hm⟩ : ∃ m r2, popMax (rest ++ newcands) = some (m, r2) := by
            cases hp : popMax (rest ++ newcands) with
            | none => exact absurd ((popMax_eq_none_iff _).mp hp) hqne
            | some p =>
              obtain ⟨m, r2⟩ := p
              exact ⟨m, r2, rfl⟩
          have htop : topUpper (rest ++ newcands) = m.m_bounds.2 := by
            rw [topUpper, hm]
          have htople : topUpper (rest ++ newcands) ≤ st.global_upper := by
            rw [htop]
            exact hq_ub m (popMax_mem hm)
          refine ⟨hlow_ge, ?_, ?_, ?_⟩
          · exact max_le htople hlow_le
          · exact le_max_right _ _
          · intro c hc
            refine le_trans ?_ (le_max_left (topUpper (rest ++ newcands)) newLower)
            rw [htop]
            exact popMax_is_max hm c hc
    · rw [if_neg hguard]
      exact ⟨le_refl _, le_refl _, hInv.1, fun c hc => hInv.2 c (hrestmem c hc)⟩

/-- When `berun` returns a state, the while condition fails at that state. -/
theorem berun_final_cond (O : BEOracles) (error_bound : ℚ) :
    ∀ (fuel : ℕ) (st final : BEState), berun O error_bound fuel st = some final →
      ¬(error_bound < final.global_upper - final.global_lower ∧ final.queue ≠ []) := by
  intro fuel
  induction fuel with
  | zero =>
    intro st final h
    rw [berun] at h
    by_cases hc : error_bound < st.global_upper - st.global_lower ∧ st.queue ≠ []
    · rw [if_pos hc] at h
      exact absurd h (by simp)
    · rw [if_neg hc] at h
      simp only [Option.some.injEq] at h
      exact h ▸ hc
  | succ n ih =>
    intro st final h
    rw [berun] at h
    by_cases hc : error_bound < st.global_upper - st.global_lower ∧ st.queue ≠ []
    · rw [if_pos hc] at h
      exact ih _ final h
    · rw [if_neg hc] at h
      simp only [Option.some.injEq] at h
      exact h ▸ hc

/-- C1: whenever the branch-and-bound loop of `bounded_error_Hausdorff_impl` terminates
within its fuel, the function returns the midpoint `(lower + upper) / 2` of the final
global bounds; if the loop exited with the priority queue still non-empty (normal
termination), then `upper - lower ≤ error_bound`, and every value `D` bracketed by the
final bounds — in particular the true directed Hausdorff distance, which the
specification asserts lies in `[lower, upper]` — is within `error_bound / 2` of the
returned midpoint. -/
theorem C1_midpoint_within_bound (O : BEOracles) (error_bound : ℚ) (fuel : ℕ)
    (init final : BEState)
    (hrun : berun O error_bound fuel init = some final)
    (hq : final.queue ≠ []) :
    bounded_error_Hausdorff_impl O error_bound fuel init =
      some ((final.global_lower + final.global_upper) / 2) ∧
    final.global_upper - final.global_lower ≤ error_bound ∧
    ∀ D : ℚ, final.global_lower ≤ D → D ≤ final.global_upper →
      |(final.global_lower + final.global_upper) / 2 - D| ≤ error_bound / 2 := by
  have hgap : final.global_upper - final.global_lower ≤ error_bound := by
    have hcond := berun_final_cond O error_bound fuel init final hrun
    rcases not_and_or.mp hcond with h1 | h2
    · exact not_lt.mp h1
    · exact absurd hq h2
  refine ⟨?_, hgap, ?_⟩
  · rw [bounded_error_Hausdorff_impl, hrun]
    rfl
  · intro D hlD hDu
    rw [abs_le]
    constructor <;> linarith

/-- Oracle used by the bounded-error witnesses: every point projects to primitive 0 and
every sub-triangle inherits the degenerate bounds (upper, upper) of its parent. -/
def Owit : BEOracles :=
  ⟨fun _ => 0, fun pb _ => (pb.2, pb.2)⟩

/-- A one-candidate state whose gap is already closed: the loop exits immediately with a
non-empty queue. -/
def st_wit : BEState :=
  ⟨[⟨⟨⟨0, 0, 0⟩, ⟨1, 0, 0⟩, ⟨0, 1, 0⟩⟩, (0, 1)⟩], 0, 1⟩

/-- C1 witness: with fuel 0 and a state whose bound gap (1 - 0) does not exceed the error
bound 1, `berun` exits normally with the queue non-empty, and the theorem applies. -/
theorem C1_witness :
    bounded_error_Hausdorff_impl Owit 1 0 st_wit = some ((0 + 1) / 2) ∧
    (1 : ℚ) - 0 ≤ 1 := by
  have hcond : ¬((1:ℚ) < st_wit.global_upper - st_wit.global_lower ∧ st_wit.queue ≠ []) := by
    norm_num [st_wit]
  have hrun : berun Owit 1 0 st_wit = some st_wit := by
    rw [berun, if_neg hcond]
  have h := C1_midpoint_within_bound Owit 1 0 st_wit st_wit hrun (by simp [st_wit])
  exact ⟨h.1, h.2.1⟩

/-- C2 witness: the invariant holds for `st_wit`, the oracle `Owit` is sound, and one loop
step keeps the bounds monotone. -/
theorem C2_witness :
    BEInv st_wit ∧
    st_wit.global_lower ≤ (bstep Owit 1 st_wit).global_lower ∧
    (bstep Owit 1 st_wit).global_upper ≤ st_wit.global_upper := by
  have hO : BEOraclesSound Owit := fun pb t => ⟨le_refl _, le_refl _⟩
  have hInv : BEInv st_wit := by
    refine ⟨by norm_num [st_wit], ?_⟩
    intro c hc
    simp only [st_wit, List.mem_singleton] at hc
    subst hc
    norm_num [st_wit]
  have h := C2_bounds_monotone Owit 1 st_wit hO hInv
  exact ⟨hInv, h.1, h.2.1⟩
